import Mathlib

/-!
Verification development for the m-ld replication core.

The definitions below are a shallow embedding of the TypeScript sources:

* src/dataset/index.ts        — PatchQuads, QuadStoreDataset.transact
* src/dataset/SuSetDataset.ts — SuSetDataset.transact / apply / applyConstraint /
                                operationsSince
* src/mqtt/MqttRemotes.ts     — onHello / newClock / send / nextSendAddress
* MeldEncoding (unnamed source part) — reifyTriplesTids / unreify

Quad graphs are modelled as finite sets of triples in their graph (the graph
component of a quad is which state field it lives in: the default data graph,
the qs:tids graph, or the qs:control journal).  Triple identity keys
(tripleId = hash of s,p,o) are modelled by the triple itself, i.e. the hash is
taken injective.  The key-value store commit `store.patch(oldQuads, newQuads)`
removes the old quads and then inserts the new ones in one atomic batch.

TreeClock (src/clocks.ts) and SuSetJournal (src/dataset/SuSetJournal.ts) are
not part of the provided sources; they are modelled from the spec where
needed, and each such definition is marked `Modelled from the spec:`.
-/

namespace MLd

/-- An RDF term: IRI, blank node, or literal (rdf-js Term as used by the core). -/
inductive Term where
  | iri (v : String)
  | blank (v : String)
  | lit (v : String)
deriving DecidableEq, Repr

/-- The value of a term, as in rdf-js term.value. -/
def Term.value : Term → String
  | .iri v => v
  | .blank v => v
  | .lit v => v

/-- Whether the term is a NamedNode (termType == 'NamedNode'). -/
def Term.isNamedNode : Term → Bool
  | .iri _ => true
  | _ => false

/-- An RDF triple (s, p, o).  Quads carry their graph as the state field they
live in, so the graph component is left off. -/
structure Triple where
  subject : Term
  predicate : Term
  object : Term
deriving DecidableEq, Repr

/-- Modelled from the spec: the tree shape of a TreeClock (src/clocks.ts is not
under src/).  Spec section 3: a binary tree whose leaves hold integer tick
counts and whose interior nodes are unlabeled. -/
inductive ClockTree where
  | leaf (ticks : Nat)
  | node (l r : ClockTree)
deriving DecidableEq, Repr

/-- Modelled from the spec: a TreeClock is a tree plus the path addressing the
designated identity leaf (spec section 3 and the wire format of section 6:
the identity path is encoded as a parallel list of 0/1 indices). -/
structure TreeClock where
  tree : ClockTree
  idPath : List Bool
deriving DecidableEq, Repr

namespace TreeClock

/-- Spec section 4.1: GENESIS is the designated root clock with a single
identity leaf at tick 0. -/
def GENESIS : TreeClock := ⟨ClockTree.leaf 0, []⟩

/-- Ticks recorded in a tree at a leaf position.  A leaf reached at or before
the end of the path supplies its count (a process that has not forked that
finely still covers the position); a path ending at an interior node counts as
zero (spec section 4.1: missing subtrees pad with zero). -/
def ticksAt : ClockTree → List Bool → Nat
  | .leaf t, _ => t
  | .node _ _, [] => 0
  | .node l _, false :: p => ticksAt l p
  | .node _ r, true :: p => ticksAt r p

/-- Looks up the exact leaf at a path, if there is a leaf precisely there. -/
def lookupLeaf : ClockTree → List Bool → Option Nat
  | .leaf t, [] => some t
  | .leaf _, _ :: _ => none
  | .node _ _, [] => none
  | .node l _, false :: p => lookupLeaf l p
  | .node _ r, true :: p => lookupLeaf r p

/-- Modelled from the spec: ticks(self) is the count on the identity leaf
(spec section 3). -/
def ticks (self : TreeClock) : Nat := ticksAt self.tree self.idPath

/-- Modelled from the spec: getTicks(self, other) is the ticks attributed to
the other clock's identity as seen in self, or nil if the identity leaf is
absent in self (spec section 3). -/
def getTicks (self other : TreeClock) : Option Nat :=
  lookupLeaf self.tree other.idPath

/-- The paths of all leaves of a tree. -/
def leafPaths : ClockTree → List (List Bool)
  | .leaf _ => [[]]
  | .node l r => (leafPaths l).map (List.cons false) ++ (leafPaths r).map (List.cons true)

/-- Modelled from the spec: anyLt(self, other, mode) is true iff some leaf of
other exceeds the corresponding count in self, with missing subtrees counting
as zero on the left side; mode = includeIds also considers the identity
leaves, otherwise the other clock's identity leaf is skipped (spec sections 3
and 4.1). -/
def anyLt (self other : TreeClock) (includeIds : Bool) : Bool :=
  (leafPaths other.tree).any fun p =>
    (includeIds || !(p == other.idPath)) &&
    decide (ticksAt self.tree p < ticksAt other.tree p)

end TreeClock

/-- An atomically applied patch of quads (src/dataset/index.ts PatchQuads).
Concatenation appends both sides. -/
structure PatchQuads where
  oldQuads : List Triple
  newQuads : List Triple
deriving DecidableEq, Repr

/-- PatchQuads.concat from src/dataset/index.ts. -/
def PatchQuads.concat (p q : PatchQuads) : PatchQuads :=
  ⟨p.oldQuads ++ q.oldQuads, p.newQuads ++ q.newQuads⟩

/-- A decoded m-ld delta: the transaction id, the inserted triples, and the
deleted triples with the TIDs claimed for each (the reified deletes of the
wire format after unreify; the JSON encode/decode layer is modelled separately
with reifyTriplesTids and unreify below). -/
structure Delta where
  tid : String
  insert : List Triple
  deleteTids : List (Triple × List String)
deriving DecidableEq, Repr

/-- A journal entry as appended by SuSetJournalEntry.createNext: the delta, the
local time of the entry, and the remote message time if the delta was
received from a peer. -/
structure JournalEntry where
  delta : Delta
  time : TreeClock
  remoteTime : Option TreeClock
deriving DecidableEq, Repr

/-- The persistent state of a SuSetDataset: the default data graph, the
qs:tids graph of (triple hash, tid) quads, the qs:all TID set, and the
journal in the qs:control graph. -/
structure SuState where
  data : Finset Triple
  tids : Finset (Triple × String)
  allTids : Finset String
  journal : List JournalEntry
deriving DecidableEq

/-- SuSetDataset.findTripleTids: the set of TIDs recorded for a triple in the
qs:tids graph. -/
def tidsOf (tids : Finset (Triple × String)) (t : Triple) : Finset String :=
  (tids.filter fun p => p.1 = t).image Prod.snd

/-- A MeldUpdate as produced by SuSetDataset.asUpdate: the ticks of the time
together with the old and new quads of the patch (the flattening of quads to
JSON-LD subjects is part of the out-of-scope query front end, spec
section 1). -/
structure MeldUpdate where
  ticks : Nat
  deletes : List Triple
  inserts : List Triple
deriving DecidableEq, Repr

/-- SuSetDataset.asUpdate. -/
def asUpdate (time : TreeClock) (patch : PatchQuads) : MeldUpdate :=
  ⟨time.ticks, patch.oldQuads, patch.newQuads⟩

/-- A DeltaMessage { time, delta }. -/
structure DeltaMessage where
  time : TreeClock
  delta : Delta
deriving DecidableEq, Repr

/-- The pluggable constraint, consumed at its interface (spec section 4.5):
check may fail the transaction; apply may produce a repair write, given here
already compiled by the query front end into the patch it denotes (the
JrqlGraph.write step of SuSetDataset.applyConstraint). -/
structure Constraint where
  check : MeldUpdate → Except String Unit
  apply : MeldUpdate → Option PatchQuads

/-- Committing a patch to a quad graph: the key-value batch removes the old
quads and inserts the new quads (an insert of a quad also removed by the same
batch wins). -/
def commitData (data : Finset Triple) (patch : PatchQuads) : Finset Triple :=
  (data \ patch.oldQuads.toFinset) ∪ patch.newQuads.toFinset

/-- Drawing a TID set from the qs:tids graph as a list (the store returns the
tid quads in its key order; the order is irrelevant to the set semantics). -/
def sortTids (s : Finset String) : List String :=
  s.sort (· ≤ ·)

/-- SuSetDataset.findTriplesTids: each quad paired with the TIDs the qs:tids
graph holds for it. -/
def findTriplesTids (st : SuState) (quads : List Triple) :
    List (Triple × List String) :=
  quads.map fun t => (t, sortTids (tidsOf st.tids t))

/-- The tid quads of found triple TIDs, flattened
(flatten(deletedTriplesTids.map(tripleTids => tripleTids.tids)) in
SuSetDataset.txnTidPatches). -/
def tidQuadsOf (tts : List (Triple × List String)) : List (Triple × String) :=
  (tts.map fun p => p.2.map fun x => (p.1, x)).flatten

/-- The outcome of a committed SuSetDataset transaction: the state after the
atomic batch, the updates pushed to updateSource, and the returned value. -/
structure TxnResult where
  state : SuState
  notifications : List MeldUpdate
  value : DeltaMessage
deriving DecidableEq

/-- SuSetDataset.transact (src/dataset/SuSetDataset.ts lines 183-216) for a
prepared local write.  The constraint is checked first; a failing check
escapes the prepare, so the dataset transaction commits nothing.  Otherwise
the deleted triples are looked up in the TID index to reify the outgoing
delta, the TID bookkeeping and the journal entry join the patch, and the
whole batch commits atomically; the MeldUpdate is notified and the
DeltaMessage returned. -/
def transact (st : SuState) (constraint : Constraint)
    (tid : String) (time : TreeClock) (patch : PatchQuads) :
    SuState × List MeldUpdate × Except String DeltaMessage :=
  match constraint.check (asUpdate time patch) with
  | .error e => (st, [], .error e)
  | .ok _ =>
    let deletedTriplesTids := findTriplesTids st patch.oldQuads
    let delta : Delta := ⟨tid, patch.newQuads, deletedTriplesTids⟩
    let tidRemovals := tidQuadsOf deletedTriplesTids
    let tidAdds := patch.newQuads.map fun t => (t, tid)
    ({ data := commitData st.data patch
       tids := (st.tids \ tidRemovals.toFinset) ∪ tidAdds.toFinset
       allTids := insert tid st.allTids
       journal := st.journal ++ [⟨delta, time, none⟩] },
     [asUpdate time patch],
     .ok ⟨time, delta⟩)

/-- The TIDs the local store holds for the triple, intersected with the TIDs
the remote delta claims for it (ourTids and toRemove of SuSetDataset.apply
lines 253-254). -/
def interTids (st : SuState) (td : Triple × List String) : Finset String :=
  (tidsOf st.tids td.1).filter fun x => x ∈ td.2

/-- Whether all of our TIDs for the triple are claimed by the delta
(toRemove.length == ourTripleTids.length, SuSetDataset.apply line 256). -/
def fullDel (st : SuState) (td : Triple × List String) : Bool :=
  decide ((interTids st td).card = (tidsOf st.tids td.1).card)

/-- One step of the reduce over the unreified deletes in SuSetDataset.apply
lines 250-259: accumulate the triple into patch.oldQuads if every local TID is
claimed, and accumulate the removed TID quads. -/
def applyDeleteStep (st : SuState)
    (acc : List Triple × List (Triple × String)) (td : Triple × List String) :
    List Triple × List (Triple × String) :=
  ((if fullDel st td then acc.1 ++ [td.1] else acc.1),
   acc.2 ++ (sortTids (interTids st td)).map fun x => (td.1, x))

/-- The reduce over the unreified deletes in SuSetDataset.apply lines 250-259,
returning the triples pushed onto patch.oldQuads and the TID quads removed
from the qs:tids graph. -/
def applyDeletes (st : SuState) (dels : List (Triple × List String)) :
    List Triple × List (Triple × String) :=
  dels.foldl (applyDeleteStep st) ([], [])

/-- A constraint transaction as assembled by SuSetDataset.applyConstraint: the
repair delta, its update, its data patch, and its TID bookkeeping (the
allTidsPatch insert and the tidPatch old and new quads). -/
structure ConstraintTxn where
  delta : Delta
  update : MeldUpdate
  patch : PatchQuads
  allTidsNew : List String
  tidOld : List (Triple × String)
  tidNew : List (Triple × String)
deriving DecidableEq

/-- PatchQuads.removeAll for the newQuads key: removes from the patch every
new quad occurring in the given quads, returning the remaining patch and the
removed quads. -/
def removeAllNew (p : PatchQuads) (qs : List Triple) : PatchQuads × List Triple :=
  (⟨p.oldQuads, p.newQuads.filter fun t => decide (t ∉ qs)⟩,
   p.newQuads.filter fun t => decide (t ∈ qs))

/-- SuSetDataset.applyConstraint (src/dataset/SuSetDataset.ts lines 307-330).
If the constraint proposes a repair for the update, the repair patch is
treated as a nested transaction with the fresh TID cxTid: existing TIDs of
its deleted triples are collected for its reified deletes; repair-deleted
quads that the applied transaction had just inserted are removed from the
applied patch but reified in the repair delta tagged with the applied
transaction's TID (toTid).  Returns the constraint transaction (if any) and
the possibly-mutated applied patch. -/
def applyConstraint (st : SuState) (constraint : Constraint) (cxTid : String)
    (toPatch : PatchQuads) (toTid : String) (update : MeldUpdate)
    (localTime : TreeClock) : Option ConstraintTxn × PatchQuads :=
  match constraint.apply update with
  | none => (none, toPatch)
  | some patch =>
    let deletedExisting := findTriplesTids st patch.oldQuads
    let mutated := removeAllNew toPatch patch.oldQuads
    let deletedTriplesTids := deletedExisting ++ mutated.2.map fun t => (t, [toTid])
    (some {
      delta := ⟨cxTid, patch.newQuads, deletedTriplesTids⟩
      update := asUpdate localTime patch
      patch := patch
      allTidsNew := [cxTid]
      tidOld := tidQuadsOf deletedExisting
      tidNew := patch.newQuads.map fun t => (t, cxTid) },
     mutated.1)

/-- The outcome of SuSetDataset.apply: the state after the atomic batch, the
updates pushed to updateSource, and the returned repair DeltaMessage, if any. -/
structure ApplyResult where
  state : SuState
  notifications : List MeldUpdate
  value : Option DeltaMessage
deriving DecidableEq

/-- SuSetDataset.apply (src/dataset/SuSetDataset.ts lines 234-300) for a
decoded remote delta.  A TID already present in qs:all is a duplicate: the
prepare returns no patch and a null value, so nothing changes.  Otherwise the
reified deletes are subtracted from the TID index (applyDeletes), the
constraint may contribute a repair transaction, the remote entry (and, after
it, any repair entry) is journaled, and the whole batch commits atomically;
the update (and any repair update) is notified, and the repair DeltaMessage
(stamped with localTime), if any, is returned for publication. -/
def apply (st : SuState) (constraint : Constraint) (cxTid : String)
    (d : Delta) (msgTime arrivalTime localTime : TreeClock) : ApplyResult :=
  if d.tid ∈ st.allTids then
    { state := st, notifications := [], value := none }
  else
    let dels := applyDeletes st d.deleteTids
    let patch : PatchQuads := ⟨dels.1, d.insert⟩
    let update := asUpdate arrivalTime patch
    let cx := applyConstraint st constraint cxTid patch d.tid update localTime
    let tidAdds := cx.2.newQuads.map fun t => (t, d.tid)
    let remoteEntry : JournalEntry := ⟨d, arrivalTime, some msgTime⟩
    match cx.1 with
    | none =>
      { state := {
          data := commitData st.data cx.2
          tids := (st.tids \ dels.2.toFinset) ∪ tidAdds.toFinset
          allTids := insert d.tid st.allTids
          journal := st.journal ++ [remoteEntry] }
        notifications := [update]
        value := none }
    | some cxn =>
      { state := {
          data := commitData st.data (cx.2.concat cxn.patch)
          tids := (st.tids \ (dels.2 ++ cxn.tidOld).toFinset)
                    ∪ (tidAdds ++ cxn.tidNew).toFinset
          allTids := insert d.tid st.allTids ∪ cxn.allTidsNew.toFinset
          journal := st.journal ++ [remoteEntry, ⟨cxn.delta, localTime, none⟩] }
        notifications := [update, cxn.update]
        value := some ⟨localTime, cxn.delta⟩ }

/-- The journal state read by SuSetDataset.operationsSince: the journal's
current local time and the chain of entries, oldest first. -/
structure SuSetJournalState where
  time : TreeClock
  entries : List JournalEntry
deriving DecidableEq

/-- Modelled from the spec: SuSetJournal.findEntry (src/dataset/SuSetJournal.ts
is not under src/).  Spec section 4.2: findEntryByTicks(ticks) locates the
entry whose localTime ticks for this clone's identity equal the given ticks;
here the index of the first such entry, or none when there is no such entry. -/
def findEntryIdx (j : SuSetJournalState) (ticks : Nat) : Option Nat :=
  j.entries.findIdx? fun e => e.time.ticks == ticks

/-- SuSetDataset.emitJournalFrom (lines 141-158) starting from a found entry:
each entry of the journal from there on is emitted as a DeltaMessage if the
filter passes, then the emission recurses on the entry's successor until the
tail completes the sequence. -/
def emitJournalFrom (entries : List JournalEntry)
    (filter : JournalEntry → Bool) : List DeltaMessage :=
  (entries.filter filter).map fun e => ⟨e.time, e.delta⟩

/-- SuSetDataset.operationsSince (lines 165-180).  Under the transaction lock:
ticks is how many of this clone's ticks the requester has seen; when nil the
revup is impossible (undefined).  Otherwise the journal entry with those ticks
is found (a falsy find also yields undefined), and the entries from there are
emitted filtered by time.anyLt(entry.time, includeIds). -/
def operationsSince (j : SuSetJournalState) (time : TreeClock) :
    Option (List DeltaMessage) :=
  match time.getTicks j.time with
  | none => none
  | some ticks =>
    match findEntryIdx j ticks with
    | none => none
    | some i =>
      some (emitJournalFrom (j.entries.drop i) fun e => time.anyLt e.time true)

/-- The observable events of one committed SuSetDataset.transact call, in the
order the JavaScript runtime executes them.  The updates observable is
updateSource piped through observeOn(asapScheduler) (SuSetDataset line 80),
so updateSource.next inside prepare (line 209) schedules an asap (microtask)
delivery; prepare then returns its patch, which resolves the promise awaited
in QuadStoreDataset.transact; the already-queued asap delivery runs before
that continuation can call store.patch, so the subscriber receives the update
before the commit of the batch. -/
inductive TxnEvent where
  | checkConstraints
  | notifyScheduled (u : MeldUpdate)
  | prepareReturn
  | notifyDelivered (u : MeldUpdate)
  | commit
deriving DecidableEq, Repr

/-- The event trace of one committed local transaction (SuSetDataset.transact
lines 186-214 under QuadStoreDataset.transact lines 76-84). -/
def transactEvents (u : MeldUpdate) : List TxnEvent :=
  [.checkConstraints, .notifyScheduled u, .prepareReturn, .notifyDelivered u, .commit]

/-- The event trace of a sequence of committed local transactions, one after
the other; updateSource is a synchronous rxjs Subject, and observeOn preserves
its emission order, so deliveries occur in transaction order. -/
def cloneEvents (updates : List MeldUpdate) : List TxnEvent :=
  (updates.map transactEvents).flatten

/-- Index of the notifyDelivered event in a trace. -/
def deliveredIdx (tr : List TxnEvent) : Nat :=
  tr.findIdx fun e => match e with | .notifyDelivered _ => true | _ => false

/-- Index of the commit event in a trace. -/
def commitIdx (tr : List TxnEvent) : Nat :=
  tr.findIdx fun e => match e with | .commit => true | _ => false

/-- The updates delivered to subscribers of the updates observable, in
delivery order. -/
def deliveredUpdates (tr : List TxnEvent) : List MeldUpdate :=
  tr.filterMap fun e => match e with | .notifyDelivered u => some u | _ => none

/-- One acquire of an AsyncLock instance for a key.  QuadStoreDataset.transact
(src/dataset/index.ts lines 76-84) runs its prepare-and-commit body inside
new AsyncLock().acquire(this.id, ...): the AsyncLock instance is constructed
freshly for each call, so the instance is identified by the call. -/
structure LockAcq where
  lockInstance : Nat
  key : String
deriving DecidableEq, Repr

/-- The lock acquisition performed by the call numbered callId of
QuadStoreDataset.transact on the dataset with the given id: a fresh AsyncLock
instance (numbered by the call) acquired for the dataset id key. -/
def transactLockAcq (datasetId : String) (callId : Nat) : LockAcq :=
  ⟨callId, datasetId⟩

/-- AsyncLock semantics: an acquire is blocked only by a holder of the same
key on the same AsyncLock instance. -/
def blocks (held sought : LockAcq) : Bool :=
  held.lockInstance == sought.lockInstance && held.key == sought.key

/-- Whether an acquire can proceed immediately while the given acquisitions
are held (its body then runs interleaved with theirs). -/
def canAcquire (held : List LockAcq) (a : LockAcq) : Bool :=
  held.all fun h => !(blocks h a)

/-- The onHello handler (MqttRemotes lines 269-276) folded over the Future
semantics of isGenesis: a Future resolves once and ignores later resolves, so
the retained value is decided by the first observed hello. -/
def helloResolve (myId : String) (isGenesis : Option Bool) (helloId : String) :
    Option Bool :=
  match isGenesis with
  | some b => some b
  | none => some (decide (myId = helloId))

/-- The value of the isGenesis Future after the given hello messages have been
observed on the registry topic, in order. -/
def isGenesisAfter (myId : String) (hellos : List String) : Option Bool :=
  hellos.foldl (helloResolve myId) none

/-- MqttRemotes.newClock (lines 178-182): once isGenesis resolves, either
TreeClock.GENESIS locally, or the clock of a NewClock request-response with a
peer (which forks its own clock to answer).  The boolean records whether the
request was sent. -/
def newClock (isGenesis : Bool) (peerClock : TreeClock) : TreeClock × Bool :=
  if isGenesis then (TreeClock.GENESIS, false) else (peerClock, true)

/-- Adding to a JavaScript Set: a no-op when present, else appended in
insertion order. -/
def addToSet (s : List String) (x : String) : List String :=
  if s.contains x then s else s ++ [x]

/-- MqttRemotes.nextSendAddress (lines 419-433): when every present id has
recently been sent to, recentlySentTo is cleared; our own id joins
recentlySentTo; the first present id not in recentlySentTo is chosen and
recorded, else null.  Returns the chosen peer (if any) and the resulting
recentlySentTo. -/
def nextSendAddress (myId : String) (present recent : List String) :
    Option String × List String :=
  let r1 := if present.all fun id => recent.contains id then [] else recent
  let r2 := addToSet r1 myId
  match present.find? fun id => !(r2.contains id) with
  | some toId => (some toId, addToSet r2 toId)
  | none => (none, r2)

/-- The outcome of MqttRemotes.send (lines 290-300): with no address the
MeldError NONE_VISIBLE is raised before anything is published; otherwise the
request is published to the chosen peer's send topic. -/
inductive SendOutcome where
  | noneVisible
  | sent (toId : String) (recent : List String)
deriving DecidableEq, Repr

/-- MqttRemotes.send up to the publish of the request. -/
def send (myId : String) (present recent : List String) : SendOutcome :=
  match nextSendAddress myId present recent with
  | (none, _) => .noneVisible
  | (some toId, r) => .sent toId r

/-- The mqtt.publish calls of a send outcome (the request publications). -/
def publishedRequests : SendOutcome → List String
  | .noneVisible => []
  | .sent toId _ => [toId]

/-- RDF.type. -/
def rdfType : String := "http://www.w3.org/1999/02/22-rdf-syntax-ns#type"

/-- RDF.Statement. -/
def rdfStatement : String := "http://www.w3.org/1999/02/22-rdf-syntax-ns#Statement"

/-- RDF.subject. -/
def rdfSubject : String := "http://www.w3.org/1999/02/22-rdf-syntax-ns#subject"

/-- RDF.predicate. -/
def rdfPredicate : String := "http://www.w3.org/1999/02/22-rdf-syntax-ns#predicate"

/-- RDF.object. -/
def rdfObject : String := "http://www.w3.org/1999/02/22-rdf-syntax-ns#object"

/-- M_LD.tid. -/
def mldTid : String := "http://m-ld.org/#tid"

/-- The reification statements MeldEncoding.reifyTriplesTids produces for one
map entry: the rdf:Statement type quad, the s, p, o quads, and one m-ld:tid
quad per TID, all under the minted reification id. -/
def reifyBlock (rid : Term) (t : Triple) (tids : List String) : List Triple :=
  [⟨rid, Term.iri rdfType, Term.iri rdfStatement⟩,
   ⟨rid, Term.iri rdfSubject, t.subject⟩,
   ⟨rid, Term.iri rdfPredicate, t.predicate⟩,
   ⟨rid, Term.iri rdfObject, t.object⟩] ++
  tids.map fun tid => ⟨rid, Term.iri mldTid, Term.lit tid⟩

/-- MeldEncoding.reifyTriplesTids over the entries of a TripleMap, with the
blank reification ids supplied by an indexed minting function (rdf.blankNode
mints a fresh label per entry); the index counts the entries already
reified. -/
def reifyFrom (rids : Nat → String) : Nat → List (Triple × List String) → List Triple
  | _, [] => []
  | i, (t, tids) :: rest =>
    reifyBlock (Term.blank (rids i)) t tids ++ reifyFrom rids (i + 1) rest

/-- MeldEncoding.reifyTriplesTids (unnamed source part, lines 455-466). -/
def reifyTriplesTids (rids : Nat → String) (m : List (Triple × List String)) :
    List Triple :=
  reifyFrom rids 0 m

/-- A triple under reconstruction by unreify: the JavaScript object starts
empty and its positions are assigned as reification statements arrive. -/
structure PartialTriple where
  subject : Option Term
  predicate : Option Term
  object : Option Term
deriving DecidableEq, Repr

/-- The empty partial triple. -/
def emptyPartial : PartialTriple := ⟨none, none, none⟩

/-- The state unreify accumulates: a JavaScript object keyed by reification id
(string keys in insertion order), each entry holding the partial triple and
the TIDs pushed so far. -/
abbrev RidMap := List (String × (PartialTriple × List String))

/-- Insert-or-update of the rid-keyed object, preserving insertion order; an
absent key starts from the empty triple and no TIDs. -/
def updateRid (acc : RidMap) (rid : String)
    (f : PartialTriple × List String → PartialTriple × List String) : RidMap :=
  match acc with
  | [] => [(rid, f (emptyPartial, []))]
  | (r, v) :: rest =>
    if r = rid then (r, f v) :: rest else (r, v) :: updateRid rest rid f

/-- One reification statement processed by unreify (unnamed source part, lines
402-425): switch on the predicate's value; rdf:subject and rdf:predicate only
assign NamedNode objects; rdf:object always assigns; m-ld:tid pushes the
object's value; anything else (such as the rdf:type statement) leaves the
entry unchanged. -/
def unreifyStep (acc : RidMap) (q : Triple) : RidMap :=
  updateRid acc q.subject.value fun v =>
    if q.predicate.value = rdfSubject then
      if q.object.isNamedNode then ({ v.1 with subject := some q.object }, v.2) else v
    else if q.predicate.value = rdfPredicate then
      if q.object.isNamedNode then ({ v.1 with predicate := some q.object }, v.2) else v
    else if q.predicate.value = rdfObject then
      ({ v.1 with object := some q.object }, v.2)
    else if q.predicate.value = mldTid then
      (v.1, v.2 ++ [q.object.value])
    else v

/-- unreify (unnamed source part, lines 402-425): reduce the reification
statements into the rid-keyed object and take its values. -/
def unreify (reifications : List Triple) : List (PartialTriple × List String) :=
  (reifications.foldl unreifyStep []).map Prod.snd

/-- The completed partial triple a round trip should reconstruct. -/
def toPartial (t : Triple) : PartialTriple :=
  ⟨some t.subject, some t.predicate, some t.object⟩

/-- The rid-keyed entries unreify reconstructs for a reified map: one entry
per map entry, keyed by its minted reification id, holding the completed
triple and its TIDs. -/
def mEntries (rids : Nat → String) : Nat → List (Triple × List String) → RidMap
  | _, [] => []
  | i, (t, tids) :: rest => (rids i, (toPartial t, tids)) :: mEntries rids (i + 1) rest

/-- The eligible peers of a send, per the protocol: the present ids, after the
round-robin clear of recentlySentTo, excluding our own id and the remaining
recentlySentTo ids, in presence order. -/
def eligiblePeers (myId : String) (present recent : List String) : List String :=
  present.filter fun id =>
    !((addToSet (if present.all fun i => recent.contains i then [] else recent)
        myId).contains id)

/-- A constraint that never fails and never repairs (the default CheckList of
no constraints). -/
def noConstraint : Constraint := ⟨fun _ => .ok (), fun _ => none⟩

/-- A constraint whose check always fails. -/
def failingConstraint : Constraint :=
  ⟨fun _ => .error "constraint failed", fun _ => none⟩

/-- An example triple. -/
def tripleA : Triple := ⟨.iri "http://ex.org/fred", .iri "http://ex.org/#name", .lit "Fred"⟩

/-- Another example triple. -/
def tripleB : Triple :=
  ⟨.iri "http://ex.org/fred", .iri "http://ex.org/#name", .lit "Flintstone"⟩

/-- An example dataset state holding tripleA asserted by TID a1, with a
one-entry journal. -/
def stateA : SuState :=
  { data := {tripleA}
    tids := {(tripleA, "a1")}
    allTids := {"a1"}
    journal := [⟨⟨"a1", [tripleA], []⟩, ⟨.leaf 1, []⟩, none⟩] }

/-- A previously applied delta, re-delivered. -/
def deltaDup : Delta := ⟨"a1", [tripleA], []⟩

/-- A genesis-shaped example clock. -/
def clk0 : TreeClock := ⟨.leaf 1, []⟩

/-- An example update. -/
def updateA : MeldUpdate := ⟨1, [], [tripleA]⟩

/-- A journal clone's current time: the clone is the left leaf at tick 2 and
has seen no ticks of the requester (right leaf). -/
def journalTime5 : TreeClock := ⟨.node (.leaf 2) (.leaf 0), [false]⟩

/-- The clone's journal entry at its tick 1, recording 9 observed ticks of a
third process folded into the requester's side of the tree. -/
def entry5a : JournalEntry :=
  ⟨⟨"d1", [], []⟩, ⟨.node (.leaf 1) (.leaf 9), [false]⟩, none⟩

/-- The clone's journal entry at its tick 2. -/
def entry5b : JournalEntry :=
  ⟨⟨"d2", [], []⟩, ⟨.node (.leaf 2) (.leaf 0), [false]⟩, none⟩

/-- The clone's journal with the two entries. -/
def journal5 : SuSetJournalState := ⟨journalTime5, [entry5a, entry5b]⟩

/-- A requester that has seen 1 tick of the clone and 5 ticks on its own
side. -/
def requester5 : TreeClock := ⟨.node (.leaf 1) (.leaf 5), [true]⟩

/-- A requester whose tree attributes 5 ticks to the clone, more than any
journal entry has. -/
def requester5b : TreeClock := ⟨.node (.leaf 5) (.leaf 0), [true]⟩

/-- The revup sequence the clone's journal yields for requester5. -/
def out5 : List DeltaMessage :=
  [⟨entry5a.time, entry5a.delta⟩, ⟨entry5b.time, entry5b.delta⟩]

/-- The repair delta applyConstraint assembles inside apply: minted TID cxTid,
the repair's inserts, and reified deletes combining the existing TIDs of the
repair-deleted triples with the remote-inserted triples the repair deleted,
tagged with the remote delta's TID. -/
def repairDelta (st : SuState) (d : Delta) (cxPatch : PatchQuads)
    (cxTid : String) : Delta :=
  ⟨cxTid, cxPatch.newQuads,
    findTriplesTids st cxPatch.oldQuads ++
      (d.insert.filter fun t => decide (t ∈ cxPatch.oldQuads)).map
        fun t => (t, [d.tid])⟩

/-- A constraint whose repair always deletes tripleB (a single-valued style
repair for the witness). -/
def repairConstraint : Constraint :=
  ⟨fun _ => .ok (), fun _ => some ⟨[tripleB], []⟩⟩

/-- A remote delta inserting tripleB under the fresh TID b2. -/
def deltaB : Delta := ⟨"b2", [tripleB], []⟩

/-- A later local clock for the repair transaction. -/
def clk2 : TreeClock := ⟨.leaf 2, []⟩

/-- A remote delta retracting tripleA, naming its asserting TID a1. -/
def deltaDel : Delta := ⟨"c1", [], [(tripleA, ["a1"])]⟩

/-- A concrete blank-id minting function for the round-trip witness. -/
def rids10 : Nat → String := fun i => toString i

/-- A concrete triple-to-TIDs map for the round-trip witness. -/
def map10 : List (Triple × List String) :=
  [(tripleA, ["a1", "a2"]), (tripleB, ["b1"])]

-- Theorems ------------------------------------------------------------------

/-- Containment in a list of strings is membership. -/
theorem containsMem {l : List String} {a : String} : l.contains a = true ↔ a ∈ l :=
  List.elem_iff

/-- A resolved Future ignores further resolutions. -/
theorem helloResolve_resolved (myId : String) (b : Bool) (l : List String) :
    l.foldl (helloResolve myId) (some b) = some b := by
  induction l with
  | nil => rfl
  | cons a l ih => simpa [helloResolve] using ih

/-- The isGenesis Future is decided by the first hello observed. -/
theorem isGenesisAfter_cons (myId h0 : String) (rest : List String) :
    isGenesisAfter myId (h0 :: rest) = some (decide (myId = h0)) := by
  unfold isGenesisAfter
  rw [List.foldl_cons]
  exact helloResolve_resolved myId _ rest

/-- A first match is the head of the filtered list. -/
theorem find?_eq_head?_filter {α : Type} (p : α → Bool) (l : List α) :
    l.find? p = (l.filter p).head? := by
  induction l with
  | nil => rfl
  | cons a l ih =>
    by_cases h : p a
    · rw [List.find?_cons_of_pos _ h, List.filter_cons_of_pos h, List.head?_cons]
    · rw [List.find?_cons_of_neg _ h, List.filter_cons_of_neg (by simpa using h), ih]

/-- An element is in the set it was added to. -/
theorem mem_addToSet_self (s : List String) (x : String) : x ∈ addToSet s x := by
  unfold addToSet
  by_cases h : s.contains x = true
  · rw [if_pos h]; exact containsMem.mp h
  · rw [if_neg h]; exact List.mem_append_right s (List.mem_singleton.mpr rfl)

/-- Adding to a set keeps its members. -/
theorem mem_addToSet_of_mem (s : List String) (x y : String) (h : y ∈ s) :
    y ∈ addToSet s x := by
  unfold addToSet
  by_cases hc : s.contains x = true
  · rwa [if_pos hc]
  · rw [if_neg hc]; exact List.mem_append_left _ h

/-- The peer chosen by nextSendAddress is the first eligible peer. -/
theorem nextSendAddress_fst_eq (myId : String) (present recent : List String) :
    (nextSendAddress myId present recent).1 =
      (eligiblePeers myId present recent).head? := by
  simp only [nextSendAddress, eligiblePeers]
  rw [← find?_eq_head?_filter]
  split <;> rename_i heq <;> rw [heq]

/-- C1: for a remote delta whose TID is already in the qs:all set,
SuSetDataset.apply commits no quad writes, appends no journal entry, emits no
update notification and returns null: the state is exactly the input state. -/
theorem apply_duplicate_tid_noop (st : SuState) (constraint : Constraint)
    (cxTid : String) (d : Delta) (msgTime arrivalTime localTime : TreeClock)
    (h : d.tid ∈ st.allTids) :
    apply st constraint cxTid d msgTime arrivalTime localTime =
      ⟨st, [], none⟩ := by
  simp [apply, h]

/-- Witness for C1: re-applying the already-applied deltaDup to stateA changes
nothing. -/
theorem apply_duplicate_tid_noop_witness :
    deltaDup.tid ∈ stateA.allTids ∧
      apply stateA noConstraint "cx0" deltaDup clk0 clk0 clk0 = ⟨stateA, [], none⟩ :=
  ⟨by decide,
   apply_duplicate_tid_noop stateA noConstraint "cx0" deltaDup clk0 clk0 clk0 (by decide)⟩

/-- C3: a constraint check failure escapes SuSetDataset.transact before any
patch exists, so the dataset state is unchanged, no update is notified, and
the error is surfaced to the caller. -/
theorem transact_constraint_failure_unchanged (st : SuState)
    (constraint : Constraint) (tid : String) (time : TreeClock)
    (patch : PatchQuads) (e : String)
    (h : constraint.check (asUpdate time patch) = .error e) :
    transact st constraint tid time patch = (st, [], .error e) := by
  simp [transact, h]

/-- Witness for C3: a write of two names for fred under the failing constraint
leaves stateA unchanged and surfaces the error. -/
theorem transact_constraint_failure_unchanged_witness :
    failingConstraint.check (asUpdate clk0 ⟨[], [tripleA, tripleB]⟩) =
        .error "constraint failed" ∧
      transact stateA failingConstraint "b1" clk0 ⟨[], [tripleA, tripleB]⟩ =
        (stateA, [], .error "constraint failed") :=
  ⟨rfl, transact_constraint_failure_unchanged stateA failingConstraint "b1" clk0
    ⟨[], [tripleA, tripleB]⟩ "constraint failed" rfl⟩

/-- Membership in a triple's TID set is membership of the tid quad. -/
theorem mem_tidsOf {T : Finset (Triple × String)} {t : Triple} {x : String} :
    x ∈ tidsOf T t ↔ (t, x) ∈ T := by
  unfold tidsOf
  constructor
  · intro hx
    obtain ⟨p, hp, hpx⟩ := Finset.mem_image.mp hx
    obtain ⟨hpT, hp1⟩ := Finset.mem_filter.mp hp
    obtain ⟨p1, p2⟩ := p
    dsimp only at hp1 hpx
    subst hp1
    subst hpx
    exact hpT
  · intro h
    exact Finset.mem_image.mpr ⟨(t, x), Finset.mem_filter.mpr ⟨h, rfl⟩, rfl⟩

/-- Drawing a TID set as a list preserves its members. -/
theorem mem_sortTids {s : Finset String} {x : String} : x ∈ sortTids s ↔ x ∈ s := by
  unfold sortTids
  exact Finset.mem_sort _

/-- The length test of the reduce detects exactly that every local TID of the
triple is claimed by the delta. -/
theorem fullDel_iff (st : SuState) (td : Triple × List String) :
    fullDel st td = true ↔ ∀ x ∈ tidsOf st.tids td.1, x ∈ td.2 := by
  unfold fullDel interTids
  rw [decide_eq_true_eq]
  constructor
  · intro hcard x hx
    have heq : ((tidsOf st.tids td.1).filter fun x => x ∈ td.2) = tidsOf st.tids td.1 :=
      Finset.eq_of_subset_of_card_le (Finset.filter_subset _ _) (le_of_eq hcard.symm)
    rw [← heq] at hx
    exact (Finset.mem_filter.mp hx).2
  · intro hall
    rw [Finset.filter_eq_self.mpr hall]

/-- Closed form of the reduce over the unreified deletes. -/
theorem applyDeletes_foldl (st : SuState) (dels : List (Triple × List String)) :
    ∀ acc : List Triple × List (Triple × String),
    dels.foldl (applyDeleteStep st) acc =
      (acc.1 ++ (dels.filter fun td => fullDel st td).map Prod.fst,
       acc.2 ++ dels.flatMap fun td =>
         (sortTids (interTids st td)).map fun x => (td.1, x)) := by
  induction dels with
  | nil => intro acc; simp
  | cons td dels ih =>
    intro acc
    rw [List.foldl_cons, ih]
    unfold applyDeleteStep
    by_cases hf : fullDel st td
    · simp [hf, List.filter_cons, List.flatMap_cons]
    · simp [hf, List.filter_cons, List.flatMap_cons]

/-- The triples pushed onto patch.oldQuads are the fully-claimed deletes. -/
theorem applyDeletes_fst_eq (st : SuState) (dels : List (Triple × List String)) :
    (applyDeletes st dels).1 =
      (dels.filter fun td => fullDel st td).map Prod.fst := by
  unfold applyDeletes
  rw [applyDeletes_foldl]
  simp

/-- The tid quads removed are the claimed, locally held TIDs per delete. -/
theorem applyDeletes_snd_eq (st : SuState) (dels : List (Triple × List String)) :
    (applyDeletes st dels).2 =
      dels.flatMap fun td =>
        (sortTids (interTids st td)).map fun x => (td.1, x) := by
  unfold applyDeletes
  rw [applyDeletes_foldl]
  simp

/-- A tid quad is removed by the reduce iff some delete entry claims a TID the
local store holds for the triple. -/
theorem mem_applyDeletes_removals (st : SuState)
    (dels : List (Triple × List String)) (t : Triple) (x : String) :
    (t, x) ∈ (applyDeletes st dels).2 ↔
      ∃ their, (t, their) ∈ dels ∧ (t, x) ∈ st.tids ∧ x ∈ their := by
  rw [applyDeletes_snd_eq]
  constructor
  · intro h
    obtain ⟨td, htd, hx2⟩ := List.mem_flatMap.mp h
    obtain ⟨x2, hx2m, heq⟩ := List.mem_map.mp hx2
    have h1 : td.1 = t := (Prod.ext_iff.mp heq).1
    have h2 : x2 = x := (Prod.ext_iff.mp heq).2
    have hint := Finset.mem_filter.mp (mem_sortTids.mp hx2m)
    refine ⟨td.2, ?_, ?_, ?_⟩
    · have hpair : (t, td.2) = td := by rw [← h1]
      exact hpair ▸ htd
    · have hmem := mem_tidsOf.mp hint.1
      rw [h1, h2] at hmem
      exact hmem
    · rw [← h2]
      exact hint.2
  · rintro ⟨their, htheir, hmem, hx⟩
    refine List.mem_flatMap.mpr ⟨(t, their), htheir, ?_⟩
    exact List.mem_map.mpr
      ⟨x, mem_sortTids.mpr (Finset.mem_filter.mpr ⟨mem_tidsOf.mpr hmem, hx⟩), rfl⟩

/-- A triple joins patch.oldQuads iff some delete entry claims all of its
local TIDs. -/
theorem mem_applyDeletes_old (st : SuState)
    (dels : List (Triple × List String)) (t : Triple) :
    t ∈ (applyDeletes st dels).1 ↔
      ∃ their, (t, their) ∈ dels ∧ ∀ x ∈ tidsOf st.tids t, x ∈ their := by
  rw [applyDeletes_fst_eq]
  constructor
  · intro h
    obtain ⟨td, htd, h1⟩ := List.mem_map.mp h
    obtain ⟨htdm, hfull⟩ := List.mem_filter.mp htd
    refine ⟨td.2, ?_, ?_⟩
    · have hpair : (t, td.2) = td := by rw [← h1]
      exact hpair ▸ htdm
    · have hall := (fullDel_iff st td).mp hfull
      rw [h1] at hall
      exact hall
  · rintro ⟨their, htheir, hall⟩
    refine List.mem_map.mpr ⟨(t, their), List.mem_filter.mpr ⟨htheir, ?_⟩, rfl⟩
    exact (fullDel_iff st (t, their)).mpr hall

/-- The tid quads of found triple TIDs are the held TIDs of those triples. -/
theorem mem_tidQuadsOf_find (st : SuState) (olds : List Triple)
    (t : Triple) (x : String) :
    (t, x) ∈ tidQuadsOf (findTriplesTids st olds) ↔
      t ∈ olds ∧ (t, x) ∈ st.tids := by
  unfold tidQuadsOf findTriplesTids
  constructor
  · intro h
    obtain ⟨l, hl, hxl⟩ := List.mem_flatten.mp h
    obtain ⟨p, hp, hpl⟩ := List.mem_map.mp hl
    obtain ⟨t2, ht2, hpt⟩ := List.mem_map.mp hp
    subst hpl
    subst hpt
    dsimp only at hxl
    obtain ⟨y, hy, heq⟩ := List.mem_map.mp hxl
    have h1 : t2 = t := (Prod.ext_iff.mp heq).1
    have h2 : y = x := (Prod.ext_iff.mp heq).2
    have hmem := mem_tidsOf.mp (mem_sortTids.mp hy)
    rw [h1, h2] at hmem
    exact ⟨h1 ▸ ht2, hmem⟩
  · rintro ⟨ht, hmem⟩
    refine List.mem_flatten.mpr
      ⟨(sortTids (tidsOf st.tids t)).map fun y => (t, y), ?_, ?_⟩
    · exact List.mem_map.mpr
        ⟨(t, sortTids (tidsOf st.tids t)), List.mem_map.mpr ⟨t, ht, rfl⟩, rfl⟩
    · exact List.mem_map.mpr ⟨x, mem_sortTids.mpr (mem_tidsOf.mpr hmem), rfl⟩

/-- With duplicate-free delete triples, the claimed TID list of a triple is
unique. -/
theorem nodup_keys_unique {l : List (Triple × List String)}
    (hnd : (l.map Prod.fst).Nodup) {t : Triple} {a b : List String}
    (ha : (t, a) ∈ l) (hb : (t, b) ∈ l) : a = b := by
  induction l with
  | nil => cases ha
  | cons p rest ih =>
    rw [List.map_cons] at hnd
    have hnd2 := List.nodup_cons.mp hnd
    rcases List.mem_cons.mp ha with ha1 | ha2
    · rcases List.mem_cons.mp hb with hb1 | hb2
      · exact (Prod.ext_iff.mp (ha1.trans hb1.symm)).2
      · exfalso
        apply hnd2.1
        rw [← ha1]
        exact List.mem_map.mpr ⟨(t, b), hb2, rfl⟩
    · rcases List.mem_cons.mp hb with hb1 | hb2
      · exfalso
        apply hnd2.1
        rw [← hb1]
        exact List.mem_map.mpr ⟨(t, a), ha2, rfl⟩
      · exact ih hnd2.2 ha2 hb2

/-- A triple the reduce does not delete keeps at least one tid quad. -/
theorem survivor_keeps_tid (st : SuState) (dels : List (Triple × List String))
    (t : Triple) (hkeys : (dels.map Prod.fst).Nodup)
    (hinv : (tidsOf st.tids t).Nonempty)
    (hnotold : t ∉ (applyDeletes st dels).1) :
    ∃ x, (t, x) ∈ st.tids ∧ (t, x) ∉ (applyDeletes st dels).2 := by
  by_cases hkey : ∃ their, (t, their) ∈ dels
  · obtain ⟨their, htheir⟩ := hkey
    have hnotfull : ¬ ∀ x ∈ tidsOf st.tids t, x ∈ their := by
      intro hall
      exact hnotold ((mem_applyDeletes_old st dels t).mpr ⟨their, htheir, hall⟩)
    push_neg at hnotfull
    obtain ⟨x, hx, hxnot⟩ := hnotfull
    refine ⟨x, mem_tidsOf.mp hx, ?_⟩
    intro hrem
    obtain ⟨their2, htheir2, -, hxin⟩ :=
      (mem_applyDeletes_removals st dels t x).mp hrem
    rw [nodup_keys_unique hkeys htheir2 htheir] at hxin
    exact hxnot hxin
  · obtain ⟨x, hx⟩ := hinv
    refine ⟨x, mem_tidsOf.mp hx, ?_⟩
    intro hrem
    obtain ⟨their2, htheir2, -, -⟩ :=
      (mem_applyDeletes_removals st dels t x).mp hrem
    exact hkey ⟨their2, htheir2⟩

/-- Evaluation of applyConstraint when the constraint proposes no repair. -/
theorem applyConstraint_none (st : SuState) (constraint : Constraint) (cxTid : String)
    (toPatch : PatchQuads) (toTid : String) (update : MeldUpdate)
    (localTime : TreeClock) (hcx : constraint.apply update = none) :
    applyConstraint st constraint cxTid toPatch toTid update localTime =
      (none, toPatch) := by
  unfold applyConstraint
  rw [hcx]

/-- Evaluation of applyConstraint when the constraint proposes a repair. -/
theorem applyConstraint_some (st : SuState) (constraint : Constraint) (cxTid : String)
    (toPatch : PatchQuads) (toTid : String) (update : MeldUpdate)
    (localTime : TreeClock) (cxPatch : PatchQuads)
    (hcx : constraint.apply update = some cxPatch) :
    applyConstraint st constraint cxTid toPatch toTid update localTime =
      (some {
        delta := ⟨cxTid, cxPatch.newQuads,
          findTriplesTids st cxPatch.oldQuads ++
            (toPatch.newQuads.filter fun t => decide (t ∈ cxPatch.oldQuads)).map
              fun t => (t, [toTid])⟩
        update := asUpdate localTime cxPatch
        patch := cxPatch
        allTidsNew := [cxTid]
        tidOld := tidQuadsOf (findTriplesTids st cxPatch.oldQuads)
        tidNew := cxPatch.newQuads.map fun t => (t, cxTid) },
       ⟨toPatch.oldQuads,
        toPatch.newQuads.filter fun t => decide (t ∉ cxPatch.oldQuads)⟩) := by
  unfold applyConstraint removeAllNew
  rw [hcx]

/-- Evaluation of apply for a fresh TID when the constraint does not repair. -/
theorem apply_noCx_eval (st : SuState) (constraint : Constraint) (cxTid : String)
    (d : Delta) (msgTime arrivalTime localTime : TreeClock)
    (hdup : d.tid ∉ st.allTids)
    (hcx : constraint.apply
      (asUpdate arrivalTime ⟨(applyDeletes st d.deleteTids).1, d.insert⟩) = none) :
    apply st constraint cxTid d msgTime arrivalTime localTime =
      { state := {
          data := commitData st.data ⟨(applyDeletes st d.deleteTids).1, d.insert⟩
          tids := (st.tids \ (applyDeletes st d.deleteTids).2.toFinset) ∪
            (d.insert.map fun t => (t, d.tid)).toFinset
          allTids := insert d.tid st.allTids
          journal := st.journal ++ [⟨d, arrivalTime, some msgTime⟩] }
        notifications :=
          [asUpdate arrivalTime ⟨(applyDeletes st d.deleteTids).1, d.insert⟩]
        value := none } := by
  unfold apply
  rw [if_neg hdup]
  simp only [applyConstraint_none st constraint cxTid
    ⟨(applyDeletes st d.deleteTids).1, d.insert⟩ d.tid
    (asUpdate arrivalTime ⟨(applyDeletes st d.deleteTids).1, d.insert⟩) localTime hcx]

/-- Evaluation of apply for a fresh TID when the constraint repairs. -/
theorem apply_cx_eval (st : SuState) (constraint : Constraint) (cxTid : String)
    (d : Delta) (msgTime arrivalTime localTime : TreeClock) (cxPatch : PatchQuads)
    (hdup : d.tid ∉ st.allTids)
    (hcx : constraint.apply
      (asUpdate arrivalTime ⟨(applyDeletes st d.deleteTids).1, d.insert⟩) =
        some cxPatch) :
    apply st constraint cxTid d msgTime arrivalTime localTime =
      { state := {
          data := commitData st.data
            (PatchQuads.concat
              ⟨(applyDeletes st d.deleteTids).1,
                d.insert.filter fun t => decide (t ∉ cxPatch.oldQuads)⟩ cxPatch)
          tids := (st.tids \
              ((applyDeletes st d.deleteTids).2 ++
                tidQuadsOf (findTriplesTids st cxPatch.oldQuads)).toFinset) ∪
            (((d.insert.filter fun t => decide (t ∉ cxPatch.oldQuads)).map
                fun t => (t, d.tid)) ++
              cxPatch.newQuads.map fun t => (t, cxTid)).toFinset
          allTids := insert d.tid st.allTids ∪ ([cxTid] : List String).toFinset
          journal := st.journal ++
            [⟨d, arrivalTime, some msgTime⟩,
             ⟨repairDelta st d cxPatch cxTid, localTime, none⟩] }
        notifications :=
          [asUpdate arrivalTime ⟨(applyDeletes st d.deleteTids).1, d.insert⟩,
           asUpdate localTime cxPatch]
        value := some ⟨localTime, repairDelta st d cxPatch cxTid⟩ } := by
  unfold apply
  rw [if_neg hdup]
  simp only [applyConstraint_some st constraint cxTid
    ⟨(applyDeletes st d.deleteTids).1, d.insert⟩ d.tid
    (asUpdate arrivalTime ⟨(applyDeletes st d.deleteTids).1, d.insert⟩) localTime
    cxPatch hcx]
  rfl

/-- C2: for a non-duplicate remote delta whose reified deletions carry
pairwise-distinct triples, the reduce of SuSetDataset.apply removes exactly
the TID mappings in the intersection of the claimed TIDs with the locally
stored TIDs of each deleted triple, adds the triple to the patch's oldQuads
iff that intersection is the whole local TID set, and consequently every
triple remaining in the data graph after the apply has a non-empty TID set. -/
theorem apply_delete_intersections (st : SuState) (constraint : Constraint)
    (cxTid : String) (d : Delta) (msgTime arrivalTime localTime : TreeClock)
    (hdup : d.tid ∉ st.allTids)
    (hkeys : (d.deleteTids.map Prod.fst).Nodup)
    (hinv : ∀ t ∈ st.data, (tidsOf st.tids t).Nonempty) :
    (∀ t x, (t, x) ∈ (applyDeletes st d.deleteTids).2 ↔
        ∃ their, (t, their) ∈ d.deleteTids ∧ (t, x) ∈ st.tids ∧ x ∈ their) ∧
    (∀ t, t ∈ (applyDeletes st d.deleteTids).1 ↔
        ∃ their, (t, their) ∈ d.deleteTids ∧ ∀ x ∈ tidsOf st.tids t, x ∈ their) ∧
    (∀ t, t ∈ (apply st constraint cxTid d msgTime arrivalTime localTime).state.data →
        (tidsOf (apply st constraint cxTid d msgTime arrivalTime localTime).state.tids
          t).Nonempty) := by
  refine ⟨fun t x => mem_applyDeletes_removals st d.deleteTids t x,
    fun t => mem_applyDeletes_old st d.deleteTids t, ?_⟩
  intro t
  cases hc : constraint.apply
      (asUpdate arrivalTime ⟨(applyDeletes st d.deleteTids).1, d.insert⟩) with
  | none =>
    rw [apply_noCx_eval st constraint cxTid d msgTime arrivalTime localTime hdup hc]
    intro ht
    dsimp only at ht ⊢
    unfold commitData at ht
    rcases Finset.mem_union.mp ht with hleft | hright
    · obtain ⟨htd, htnot⟩ := Finset.mem_sdiff.mp hleft
      have hnotold : t ∉ (applyDeletes st d.deleteTids).1 :=
        fun hmem => htnot (List.mem_toFinset.mpr hmem)
      obtain ⟨x, hmem, hnotrem⟩ :=
        survivor_keeps_tid st d.deleteTids t hkeys (hinv t htd) hnotold
      refine ⟨x, mem_tidsOf.mpr ?_⟩
      apply Finset.mem_union_left
      exact Finset.mem_sdiff.mpr ⟨hmem, fun hin => hnotrem (List.mem_toFinset.mp hin)⟩
    · have ht2 := List.mem_toFinset.mp hright
      refine ⟨d.tid, mem_tidsOf.mpr ?_⟩
      apply Finset.mem_union_right
      exact List.mem_toFinset.mpr (List.mem_map.mpr ⟨t, ht2, rfl⟩)
  | some cxPatch =>
    rw [apply_cx_eval st constraint cxTid d msgTime arrivalTime localTime cxPatch
      hdup hc]
    intro ht
    dsimp only at ht ⊢
    unfold commitData PatchQuads.concat at ht
    dsimp only at ht
    rcases Finset.mem_union.mp ht with hleft | hright
    · obtain ⟨htd, htnot⟩ := Finset.mem_sdiff.mp hleft
      have hnotdel : t ∉ (applyDeletes st d.deleteTids).1 := fun hin =>
        htnot (List.mem_toFinset.mpr (List.mem_append_left _ hin))
      have hnotcx : t ∉ cxPatch.oldQuads := fun hin =>
        htnot (List.mem_toFinset.mpr (List.mem_append_right _ hin))
      obtain ⟨x, hmem, hnotrem⟩ :=
        survivor_keeps_tid st d.deleteTids t hkeys (hinv t htd) hnotdel
      refine ⟨x, mem_tidsOf.mpr ?_⟩
      apply Finset.mem_union_left
      refine Finset.mem_sdiff.mpr ⟨hmem, ?_⟩
      intro hin
      rcases List.mem_append.mp (List.mem_toFinset.mp hin) with h1 | h2
      · exact hnotrem h1
      · exact hnotcx ((mem_tidQuadsOf_find st cxPatch.oldQuads t x).mp h2).1
    · rcases List.mem_append.mp (List.mem_toFinset.mp hright) with h1 | h2
      · refine ⟨d.tid, mem_tidsOf.mpr ?_⟩
        apply Finset.mem_union_right
        refine List.mem_toFinset.mpr (List.mem_append_left _ ?_)
        exact List.mem_map.mpr ⟨t, h1, rfl⟩
      · refine ⟨cxTid, mem_tidsOf.mpr ?_⟩
        apply Finset.mem_union_right
        refine List.mem_toFinset.mpr (List.mem_append_right _ ?_)
        exact List.mem_map.mpr ⟨t, h2, rfl⟩

/-- Witness for C2: retracting tripleA with its asserting TID a1 removes
exactly that mapping, deletes the triple, and the triple index afterwards
still backs every remaining data triple. -/
theorem apply_delete_intersections_witness :
    ((tripleA, "a1") ∈ (applyDeletes stateA deltaDel.deleteTids).2 ↔
      ∃ their, (tripleA, their) ∈ deltaDel.deleteTids ∧
        (tripleA, "a1") ∈ stateA.tids ∧ "a1" ∈ their) ∧
    (tripleA ∈ (applyDeletes stateA deltaDel.deleteTids).1 ↔
      ∃ their, (tripleA, their) ∈ deltaDel.deleteTids ∧
        ∀ x ∈ tidsOf stateA.tids tripleA, x ∈ their) ∧
    (tripleA ∈ (apply stateA noConstraint "cx2" deltaDel clk0 clk0 clk0).state.data →
      (tidsOf (apply stateA noConstraint "cx2" deltaDel clk0 clk0 clk0).state.tids
        tripleA).Nonempty) := by
  have h := apply_delete_intersections stateA noConstraint "cx2" deltaDel clk0 clk0
    clk0 (by decide) (by decide) (by decide)
  exact ⟨h.1 tripleA "a1", h.2.1 tripleA, h.2.2 tripleA⟩

/-- C4: applying a remote delta whose constraint check produces a repair
journals exactly two entries in order — the remote delta at arrivalTime (with
the message time), then the repair at localTime — returns the repair's
DeltaMessage stamped with localTime, and the repair's delta reifies every
repair-deleted triple that the remote delta had just inserted, tagged with
the remote delta's TID. -/
theorem apply_constraint_repair (st : SuState) (constraint : Constraint)
    (cxTid : String) (d : Delta) (msgTime arrivalTime localTime : TreeClock)
    (cxPatch : PatchQuads)
    (hdup : d.tid ∉ st.allTids)
    (hcx : constraint.apply
      (asUpdate arrivalTime ⟨(applyDeletes st d.deleteTids).1, d.insert⟩) =
        some cxPatch) :
    ∃ cd : Delta,
      (apply st constraint cxTid d msgTime arrivalTime localTime).value =
        some ⟨localTime, cd⟩ ∧
      (apply st constraint cxTid d msgTime arrivalTime localTime).state.journal =
        st.journal ++ [⟨d, arrivalTime, some msgTime⟩, ⟨cd, localTime, none⟩] ∧
      cd.tid = cxTid ∧
      ∀ t ∈ d.insert, t ∈ cxPatch.oldQuads → (t, [d.tid]) ∈ cd.deleteTids := by
  refine ⟨repairDelta st d cxPatch cxTid, ?_, ?_, rfl, ?_⟩
  · rw [apply_cx_eval st constraint cxTid d msgTime arrivalTime localTime cxPatch
      hdup hcx]
  · rw [apply_cx_eval st constraint cxTid d msgTime arrivalTime localTime cxPatch
      hdup hcx]
  · intro t ht hold
    unfold repairDelta
    refine List.mem_append_right _ ?_
    exact List.mem_map.mpr ⟨t, List.mem_filter.mpr ⟨ht, by simpa using hold⟩, rfl⟩

/-- Witness for C4: applying deltaB to stateA under the repairConstraint
journals the remote entry then the repair entry and returns the repair
message. -/
theorem apply_constraint_repair_witness :
    ∃ cd : Delta,
      (apply stateA repairConstraint "cx1" deltaB clk0 clk0 clk2).value =
        some ⟨clk2, cd⟩ ∧
      (apply stateA repairConstraint "cx1" deltaB clk0 clk0 clk2).state.journal =
        stateA.journal ++ [⟨deltaB, clk0, some clk0⟩, ⟨cd, clk2, none⟩] ∧
      cd.tid = "cx1" ∧
      ∀ t ∈ deltaB.insert,
        t ∈ (⟨[tripleB], []⟩ : PatchQuads).oldQuads →
          (t, [deltaB.tid]) ∈ cd.deleteTids :=
  apply_constraint_repair stateA repairConstraint "cx1" deltaB clk0 clk0 clk2
    ⟨[tripleB], []⟩ (by decide) (by rfl)

/-- C6 counterexample: in the event trace of a committed local transaction the
update is delivered to subscribers of the updates observable before the
commit of the batch, so the claim that it is emitted strictly after commit
fails at this input. -/
theorem notify_before_commit_counterexample :
    deliveredIdx (transactEvents updateA) < commitIdx (transactEvents updateA) ∧
      ¬ commitIdx (transactEvents updateA) < deliveredIdx (transactEvents updateA) := by
  constructor <;> decide

/-- C6 amended: local update notifications are delivered to subscribers in
transaction order (the synchronous updateSource order is preserved by
observeOn), but each transaction's update is scheduled inside prepare and
delivered before its patch is committed to the store, not after. -/
theorem notify_order_and_before_commit (us : List MeldUpdate) (u : MeldUpdate) :
    deliveredUpdates (cloneEvents us) = us ∧
      deliveredIdx (transactEvents u) < commitIdx (transactEvents u) := by
  constructor
  · induction us with
    | nil => rfl
    | cons v vs ih =>
      simp only [cloneEvents, List.map_cons, List.flatten_cons] at *
      rw [deliveredUpdates, List.filterMap_append]
      exact congrArg (List.cons v) ih
  · show (3 : Nat) < 4
    decide

/-- C7: QuadStoreDataset.transact constructs a fresh AsyncLock for every call
(new AsyncLock().acquire(this.id, ...)), so the acquisition of a second
concurrent call is not blocked by the first call's held acquisition and the
two prepare-commit bodies can interleave; only a shared instance would
block. -/
theorem transact_lock_not_shared :
    canAcquire [transactLockAcq "dataset-id" 0] (transactLockAcq "dataset-id" 1) = true ∧
      blocks (transactLockAcq "dataset-id" 0) (transactLockAcq "dataset-id" 0) = true := by
  constructor <;> decide

/-- C8: newClock resolves to TreeClock.GENESIS without any peer request
exactly when the first hello observed on the registry topic carried this
clone's own id; a first hello from another clone makes newClock request the
clock from a peer instead. -/
theorem genesis_election (myId h0 : String) (rest : List String) (g : Bool)
    (peerClock : TreeClock)
    (hg : isGenesisAfter myId (h0 :: rest) = some g) :
    (newClock g peerClock = (TreeClock.GENESIS, false) ↔ h0 = myId) ∧
    (h0 ≠ myId → newClock g peerClock = (peerClock, true)) := by
  rw [isGenesisAfter_cons] at hg
  have hgd : g = decide (myId = h0) := (Option.some.inj hg).symm
  by_cases hmy : myId = h0
  · have hg1 : g = true := by rw [hgd]; exact decide_eq_true hmy
    subst hg1
    exact ⟨⟨fun _ => hmy.symm, fun _ => by simp [newClock]⟩,
      fun hne => absurd hmy.symm hne⟩
  · have hg0 : g = false := by rw [hgd]; exact decide_eq_false hmy
    subst hg0
    have hnc : newClock false peerClock = (peerClock, true) := by simp [newClock]
    constructor
    · rw [hnc]
      constructor
      · intro hpair
        exact absurd (congrArg Prod.snd hpair) (by simp)
      · intro h0my
        exact absurd h0my.symm hmy
    · intro _
      exact hnc

/-- Witness for C8: clone a sees its own hello first and is genesis; clone b
sees a's hello first and requests a forked clock. -/
theorem genesis_election_witness :
    ((newClock true clk0 = (TreeClock.GENESIS, false) ↔ "a" = "a") ∧
      ("a" ≠ "a" → newClock true clk0 = (clk0, true))) ∧
    ((newClock false clk0 = (TreeClock.GENESIS, false) ↔ "a" = "b") ∧
      ("a" ≠ "b" → newClock false clk0 = (clk0, true))) :=
  ⟨genesis_election "a" "a" ["b"] true clk0 (by rfl),
   genesis_election "b" "a" [] false clk0 (by rfl)⟩

/-- C9: send picks its target as the first present peer that is neither
itself nor recently sent to, after the round-robin clear of recentlySentTo
when every present peer is already in it; with no eligible peer left, send
raises NONE_VISIBLE and publishes nothing. -/
theorem send_target_selection (myId : String) (present recent : List String) :
    (nextSendAddress myId present recent).1 = (eligiblePeers myId present recent).head? ∧
    (eligiblePeers myId present recent = [] →
      send myId present recent = .noneVisible ∧
      publishedRequests (send myId present recent) = []) ∧
    (∀ toId, (eligiblePeers myId present recent).head? = some toId →
      toId ∈ present ∧ toId ≠ myId ∧
      toId ∉ (if present.all fun i => recent.contains i then [] else recent) ∧
      ∃ r, send myId present recent = .sent toId r) := by
  have hsel : (nextSendAddress myId present recent).1 =
      (eligiblePeers myId present recent).head? := by
    rw [nextSendAddress_fst_eq]
  refine ⟨hsel, ?_, ?_⟩
  · intro hempty
    have hn : (nextSendAddress myId present recent).1 = none := by
      rw [hsel, hempty]; rfl
    have hsend : send myId present recent = .noneVisible := by
      unfold send
      rcases hnsa : nextSendAddress myId present recent with ⟨fst, snd⟩
      rw [hnsa] at hn
      simp at hn
      subst hn
      rfl
    exact ⟨hsend, by rw [hsend]; rfl⟩
  · intro toId hhead
    have hmem : toId ∈ eligiblePeers myId present recent :=
      List.mem_of_mem_head? hhead
    have hfilter := hmem
    unfold eligiblePeers at hfilter
    rw [List.mem_filter] at hfilter
    obtain ⟨hpres, hnotc⟩ := hfilter
    have hnotmem : toId ∉ addToSet
        (if present.all fun i => recent.contains i then [] else recent) myId := by
      intro hc
      rw [Bool.not_eq_true', ← Bool.not_eq_true] at hnotc
      exact hnotc (containsMem.mpr hc)
    refine ⟨hpres, ?_, ?_, ?_⟩
    · intro heq
      exact hnotmem (by rw [heq]; exact mem_addToSet_self _ _)
    · intro hc
      exact hnotmem (mem_addToSet_of_mem _ _ _ hc)
    · have hs : (nextSendAddress myId present recent).1 = some toId := by
        rw [hsel, hhead]
      unfold send
      rcases hnsa : nextSendAddress myId present recent with ⟨fst, snd⟩
      rw [hnsa] at hs
      simp at hs
      subst hs
      exact ⟨snd, rfl⟩

/-- C5 counterexample: operationsSince can return undefined although getTicks
is not nil (no journal entry carries the requested ticks), and when it does
return a sequence, the sequence starts from the entry at ticks — the last
entry the requester has seen, here passing the anyLt filter because of its
third-party leaf — not from the entry at ticks + 1. -/
theorem operationsSince_counterexample :
    (TreeClock.getTicks requester5b journal5.time = some 5 ∧
      operationsSince journal5 requester5b = none) ∧
    (TreeClock.getTicks requester5 journal5.time = some 1 ∧
      operationsSince journal5 requester5 = some out5 ∧
      TreeClock.ticks entry5a.time = 1 ∧
      out5.head? = some ⟨entry5a.time, entry5a.delta⟩) := by
  constructor
  · exact ⟨by decide, by decide⟩
  · exact ⟨by decide, by decide, by decide, by decide⟩

/-- Evaluation of operationsSince when getTicks is nil. -/
theorem operationsSince_eval_nil (j : SuSetJournalState) (T : TreeClock)
    (hg : T.getTicks j.time = none) : operationsSince j T = none := by
  unfold operationsSince
  rw [hg]

/-- Evaluation of operationsSince when no journal entry has the ticks. -/
theorem operationsSince_eval_notFound (j : SuSetJournalState) (T : TreeClock)
    (k : Nat) (hg : T.getTicks j.time = some k) (hf : findEntryIdx j k = none) :
    operationsSince j T = none := by
  unfold operationsSince
  simp only [hg, hf]

/-- Evaluation of operationsSince when the entry with the ticks is found. -/
theorem operationsSince_eval_found (j : SuSetJournalState) (T : TreeClock)
    (k i : Nat) (hg : T.getTicks j.time = some k) (hf : findEntryIdx j k = some i) :
    operationsSince j T =
      some (emitJournalFrom (j.entries.drop i) fun e => T.anyLt e.time true) := by
  unfold operationsSince
  simp only [hg, hf]

/-- C5 amended: operationsSince(time) returns undefined exactly when
time.getTicks(journal current time) is nil or no journal entry carries those
ticks; otherwise it returns the entries starting from the first entry whose
localTime ticks equal ticks — the last entry the requester has seen — keeping
exactly those whose localTime satisfies time.anyLt(entry.localTime,
includeIds). -/
theorem operationsSince_amended (j : SuSetJournalState) (T : TreeClock) :
    (operationsSince j T = none ↔
      ∀ k, T.getTicks j.time = some k → ∀ e ∈ j.entries, e.time.ticks ≠ k) ∧
    (∀ out, operationsSince j T = some out →
      (∀ m ∈ out, T.anyLt m.time true = true) ∧
      ∃ k i, T.getTicks j.time = some k ∧
        (∃ he : i < j.entries.length,
          (j.entries.get ⟨i, he⟩).time.ticks = k ∧
          ∀ l2 (hl : l2 < i), (j.entries.get ⟨l2, Nat.lt_trans hl he⟩).time.ticks ≠ k) ∧
        out = emitJournalFrom (j.entries.drop i) fun e => T.anyLt e.time true) := by
  constructor
  · cases hg : T.getTicks j.time with
    | none =>
      rw [operationsSince_eval_nil j T hg]
      simp [hg]
    | some k =>
      cases hf : findEntryIdx j k with
      | none =>
        rw [operationsSince_eval_notFound j T k hg hf]
        unfold findEntryIdx at hf
        rw [List.findIdx?_eq_none_iff] at hf
        constructor
        · intro _ k2 hk2
          obtain rfl : k = k2 := Option.some.inj hk2
          intro e he
          exact ne_of_beq_false (hf e he)
        · intro _
          rfl
      | some i =>
        rw [operationsSince_eval_found j T k i hg hf]
        constructor
        · intro h
          cases h
        · intro h
          exfalso
          unfold findEntryIdx at hf
          obtain ⟨hlt, hp, -⟩ := List.findIdx?_eq_some_iff_getElem.mp hf
          exact h k rfl (j.entries.get ⟨i, hlt⟩) (j.entries.get_mem _ _)
            (by simpa using hp)
  · intro out hout
    cases hg : T.getTicks j.time with
    | none => rw [operationsSince_eval_nil j T hg] at hout; cases hout
    | some k =>
      cases hf : findEntryIdx j k with
      | none => rw [operationsSince_eval_notFound j T k hg hf] at hout; cases hout
      | some i =>
        rw [operationsSince_eval_found j T k i hg hf] at hout
        have hout2 := (Option.some.inj hout).symm
        constructor
        · intro m hm
          rw [hout2] at hm
          unfold emitJournalFrom at hm
          obtain ⟨e, he, hme⟩ := List.mem_map.mp hm
          have hpass := (List.mem_filter.mp he).2
          rw [← hme]
          exact hpass
        · refine ⟨k, i, rfl, ?_, hout2⟩
          unfold findEntryIdx at hf
          obtain ⟨hlt, hp, hmin⟩ := List.findIdx?_eq_some_iff_getElem.mp hf
          refine ⟨hlt, by simpa using hp, ?_⟩
          intro l2 hl
          have := hmin l2 hl
          simp only [List.get_eq_getElem]
          intro hc
          rw [Bool.not_eq_true] at this
          exact ne_of_beq_false this hc

/-- Witness for C5 amended: every message of the revup sequence for requester5
passes the anyLt filter. -/
theorem operationsSince_amended_witness :
    ∀ m ∈ out5, TreeClock.anyLt requester5 m.time true = true :=
  ((operationsSince_amended journal5 requester5).2 out5 (by decide)).1

/-- Witness for C9: with me and peers a, b present and a recently sent to,
the chosen target is b, which is present, not me, and not recently sent to. -/
theorem send_target_selection_witness :
    "b" ∈ ["me", "a", "b"] ∧ "b" ≠ "me" ∧
      "b" ∉ (if (["me", "a", "b"].all fun i => ["a"].contains i) then [] else ["a"]) ∧
      ∃ r, send "me" ["me", "a", "b"] ["a"] = .sent "b" r :=
  (send_target_selection "me" ["me", "a", "b"] ["a"]).2.2 "b" (by rfl)

/-- Insert-or-update at an absent key appends the fresh entry. -/
theorem updateRid_absent (acc : RidMap) (rid : String)
    (f : PartialTriple × List String → PartialTriple × List String)
    (h : rid ∉ acc.map Prod.fst) :
    updateRid acc rid f = acc ++ [(rid, f (emptyPartial, []))] := by
  induction acc with
  | nil => rfl
  | cons p rest ih =>
    obtain ⟨r, v⟩ := p
    simp only [List.map_cons, List.mem_cons, not_or] at h
    unfold updateRid
    rw [if_neg fun hr => h.1 hr.symm, ih h.2]
    rfl

/-- Insert-or-update at the key of the last entry rewrites that entry. -/
theorem updateRid_last (acc : RidMap) (rid : String)
    (v : PartialTriple × List String)
    (f : PartialTriple × List String → PartialTriple × List String)
    (h : rid ∉ acc.map Prod.fst) :
    updateRid (acc ++ [(rid, v)]) rid f = acc ++ [(rid, f v)] := by
  induction acc with
  | nil => simp [updateRid]
  | cons p rest ih =>
    obtain ⟨r, w⟩ := p
    simp only [List.map_cons, List.mem_cons, not_or] at h
    rw [List.cons_append]
    unfold updateRid
    rw [if_neg fun hr => h.1 hr.symm, ih h.2, List.cons_append]

/-- Folding the m-ld:tid statements of a reification block pushes the TIDs, in
order, onto the block's entry. -/
theorem foldl_unreify_tids (acc : RidMap) (rid : String) (pt : PartialTriple)
    (tids : List String) (h : rid ∉ acc.map Prod.fst) :
    ∀ ts, List.foldl unreifyStep (acc ++ [(rid, (pt, ts))])
      (tids.map fun tid => (⟨Term.blank rid, Term.iri mldTid, Term.lit tid⟩ : Triple)) =
      acc ++ [(rid, (pt, ts ++ tids))] := by
  induction tids with
  | nil => intro ts; simp
  | cons tid tids ih =>
    intro ts
    rw [List.map_cons, List.foldl_cons]
    have hstep : unreifyStep (acc ++ [(rid, (pt, ts))])
        ⟨Term.blank rid, Term.iri mldTid, Term.lit tid⟩ =
        acc ++ [(rid, (pt, ts ++ [tid]))] := by
      unfold unreifyStep
      rw [show (Term.blank rid).value = rid from rfl, updateRid_last _ _ _ _ h]
      simp [Term.value, rdfSubject, rdfPredicate, rdfObject, mldTid]
    rw [hstep, ih (ts ++ [tid])]
    simp

/-- Folding a whole reification block onto an accumulator without its rid
appends the completed entry for the block's triple and TIDs. -/
theorem foldl_unreify_block (acc : RidMap) (rid : String) (t : Triple)
    (tids : List String) (h : rid ∉ acc.map Prod.fst)
    (hs : t.subject.isNamedNode = true) (hp : t.predicate.isNamedNode = true) :
    List.foldl unreifyStep acc (reifyBlock (Term.blank rid) t tids) =
      acc ++ [(rid, (toPartial t, tids))] := by
  unfold reifyBlock
  rw [List.cons_append, List.cons_append, List.cons_append, List.cons_append,
    List.nil_append, List.foldl_cons, List.foldl_cons, List.foldl_cons,
    List.foldl_cons]
  have h1 : unreifyStep acc ⟨Term.blank rid, Term.iri rdfType, Term.iri rdfStatement⟩ =
      acc ++ [(rid, (emptyPartial, []))] := by
    unfold unreifyStep
    rw [show (Term.blank rid).value = rid from rfl, updateRid_absent _ _ _ h]
    simp [Term.value, rdfType, rdfSubject, rdfPredicate, rdfObject, mldTid]
  have h2 : unreifyStep (acc ++ [(rid, (emptyPartial, []))])
      ⟨Term.blank rid, Term.iri rdfSubject, t.subject⟩ =
      acc ++ [(rid, ((⟨some t.subject, none, none⟩ : PartialTriple), []))] := by
    unfold unreifyStep
    rw [show (Term.blank rid).value = rid from rfl, updateRid_last _ _ _ _ h]
    simp [Term.value, hs, emptyPartial]
  have h3 : unreifyStep (acc ++ [(rid, ((⟨some t.subject, none, none⟩ : PartialTriple), []))])
      ⟨Term.blank rid, Term.iri rdfPredicate, t.predicate⟩ =
      acc ++ [(rid, ((⟨some t.subject, some t.predicate, none⟩ : PartialTriple), []))] := by
    unfold unreifyStep
    rw [show (Term.blank rid).value = rid from rfl, updateRid_last _ _ _ _ h]
    simp [Term.value, hp, rdfSubject, rdfPredicate]
  have h4 : unreifyStep
      (acc ++ [(rid, ((⟨some t.subject, some t.predicate, none⟩ : PartialTriple), []))])
      ⟨Term.blank rid, Term.iri rdfObject, t.object⟩ =
      acc ++ [(rid, (toPartial t, []))] := by
    unfold unreifyStep
    rw [show (Term.blank rid).value = rid from rfl, updateRid_last _ _ _ _ h]
    simp [Term.value, toPartial, rdfSubject, rdfPredicate, rdfObject]
  rw [h1, h2, h3, h4, foldl_unreify_tids acc rid (toPartial t) tids h []]
  simp

/-- Folding the reification of a map onto an accumulator fresh for all its
minted rids appends exactly the map's completed entries. -/
theorem unreify_reifyFrom (rids : Nat → String) (m : List (Triple × List String)) :
    ∀ (i : Nat) (acc : RidMap),
    (∀ j, i ≤ j → j < i + m.length → rids j ∉ acc.map Prod.fst) →
    (∀ j, i ≤ j → ∀ k2, j < k2 → k2 < i + m.length → rids j ≠ rids k2) →
    (∀ p ∈ m, p.1.subject.isNamedNode = true ∧ p.1.predicate.isNamedNode = true) →
    List.foldl unreifyStep acc (reifyFrom rids i m) = acc ++ mEntries rids i m := by
  induction m with
  | nil => intro i acc _ _ _; simp [reifyFrom, mEntries]
  | cons p rest ih =>
    intro i acc hfresh hdist hm
    obtain ⟨t, tids⟩ := p
    rw [show reifyFrom rids i ((t, tids) :: rest) =
      reifyBlock (Term.blank (rids i)) t tids ++ reifyFrom rids (i + 1) rest from rfl]
    rw [List.foldl_append]
    have hmem := hm (t, tids) (List.mem_cons_self _ _)
    rw [foldl_unreify_block acc (rids i) t tids
      (hfresh i le_rfl (by simp)) hmem.1 hmem.2]
    have hfresh2 : ∀ j, i + 1 ≤ j → j < (i + 1) + rest.length →
        rids j ∉ (acc ++ [(rids i, (toPartial t, tids))]).map Prod.fst := by
      intro j hj hjlen
      simp only [List.map_append, List.mem_append, List.map_cons, List.map_nil,
        List.mem_singleton, not_or]
      constructor
      · exact hfresh j (by omega) (by simp; omega)
      · intro hin
        exact hdist i le_rfl j (by omega) (by simp; omega) hin.symm
    have hdist2 : ∀ j, i + 1 ≤ j → ∀ k2, j < k2 → k2 < (i + 1) + rest.length →
        rids j ≠ rids k2 := by
      intro j hj k2 hjk hk2
      exact hdist j (by omega) k2 hjk (by simp; omega)
    have hm2 : ∀ p ∈ rest, p.1.subject.isNamedNode = true ∧
        p.1.predicate.isNamedNode = true := by
      intro q hq
      exact hm q (List.mem_cons_of_mem _ hq)
    rw [ih (i + 1) (acc ++ [(rids i, (toPartial t, tids))]) hfresh2 hdist2 hm2]
    simp [mEntries]

/-- The values of the reconstructed entries are the map's associations. -/
theorem mEntries_snd (rids : Nat → String) (m : List (Triple × List String)) :
    ∀ i, (mEntries rids i m).map Prod.snd = m.map fun p => (toPartial p.1, p.2) := by
  induction m with
  | nil => intro i; rfl
  | cons p rest ih =>
    intro i
    obtain ⟨t, tids⟩ := p
    simp [mEntries, ih]

/-- C10: for a map from triples with IRI subjects and predicates to TID lists,
unreify of the reifyTriplesTids statements recovers exactly the same
triple-to-TIDs associations, entry for entry, whenever the minted blank
reification ids are pairwise distinct. -/
theorem reify_unreify_roundtrip (rids : Nat → String) (m : List (Triple × List String))
    (hdist : ∀ j < m.length, ∀ k2 < m.length, j < k2 → rids j ≠ rids k2)
    (hm : ∀ p ∈ m, p.1.subject.isNamedNode = true ∧ p.1.predicate.isNamedNode = true) :
    unreify (reifyTriplesTids rids m) = m.map fun p => (toPartial p.1, p.2) := by
  unfold unreify reifyTriplesTids
  rw [unreify_reifyFrom rids m 0 [] (by simp)
    (fun j _ k2 hjk hk2 => hdist j (by omega) k2 (by omega) hjk) hm]
  simp [mEntries_snd]

/-- Witness for C10: the round trip at a concrete two-entry map with distinct
minted ids. -/
theorem reify_unreify_roundtrip_witness :
    unreify (reifyTriplesTids rids10 map10) =
      map10.map fun p => (toPartial p.1, p.2) :=
  reify_unreify_roundtrip rids10 map10 (by decide) (by decide)

end MLd
